import Mathlib

/-!
Verification of the NanoDevContainer version-bump and publish scripts.

This file gives a shallow embedding, in Lean, of the two Python entry points
of the repository: scripts/bump_version.py (version engine, template locator,
template updater, commit invoker, CLI driver) and scripts/publish_templates.py
(publish orchestrator).  Pure functions are translated to Lean functions;
the file system is an explicit tree value that the updater threads through;
OS-level failures (read, write, rename) are injected through an explicit
fault record so that error paths are part of the model; subprocess
collaborators (git, the devcontainer publisher) are oracles recorded in a
trace.  Theorems about these definitions settle the specification claims.
-/

/-- Model of the Python exception values that the scripts can raise and
catch.  Only the constructor matters for control flow; messages are kept
where the code formats one. -/
inductive PyErr where
  | valueError (msg : String)
  | typeError
  | fileNotFoundError (msg : String)
  | jsonDecodeError
  | osError
deriving DecidableEq

/-- The first code point of every decade of Unicode decimal digits
(general category Nd), from the Unicode 14.0 data used by the CPython in
scope.  Every Nd character sits in a run of ten consecutive code points
carrying the digit values zero through nine of one script, so a
character is a decimal digit exactly when it lies in one of these
decades, and its digit value is its offset into its decade. -/
def ndDecadeStarts : List Nat :=
  [48, 1632, 1776, 1984, 2406, 2534, 2662, 2790, 2918, 3046, 3174, 3302,
  3430, 3558, 3664, 3792, 3872, 4160, 4240, 6112, 6160, 6470, 6608, 6784,
  6800, 6992, 7088, 7232, 7248, 42528, 43216, 43264, 43472, 43504, 43600,
  44016, 65296, 66720, 68912, 69734, 69872, 69942, 70096, 70384, 70736,
  70864, 71248, 71360, 71472, 71904, 72016, 72784, 73040, 73120, 92768,
  92864, 93008, 120782, 120792, 120802, 120812, 120822, 123200, 123632,
  125264, 130032]

/-- Model of the regex character class backslash-d: a str pattern
without re.ASCII matches every Unicode decimal digit (category Nd), not
only the ASCII digits, and int() converts each of them by its decimal
digit value. -/
def pyDigit (c : Char) : Bool :=
  ndDecadeStarts.any (fun s => decide (s ≤ c.toNat) && decide (c.toNat < s + 10))

/-- Value of a digit character, as int() reads one decimal digit: the
offset of the code point into its Nd decade. -/
def digitVal (c : Char) : Nat :=
  match ndDecadeStarts.find? (fun s => decide (s ≤ c.toNat) && decide (c.toNat < s + 10)) with
  | some s => c.toNat - s
  | none => 0

/-- Model of Python int() on a nonempty string of decimal digits. -/
def digitsToNat (cs : List Char) : Nat :=
  cs.foldl (fun acc c => acc * 10 + digitVal c) 0

/-- Model of re.match with the anchored pattern of parse_version
(three groups of one-or-more digits separated by dots, then a dollar
anchor).  The greedy digit groups never need backtracking because a dot is
not a digit, so a single left-to-right scan is the exact behaviour of the
regex engine.  The dollar anchor of re.match accepts either the end of the
string or a position just before a single trailing newline, which is why
the final remainder may be the one-character list containing a newline. -/
def semverGroups (cs : List Char) : Option (List Char × List Char × List Char) :=
  let (a, r1) := List.span pyDigit cs
  if a.isEmpty then none else
  match r1 with
  | '.' :: r2 =>
    let (b, r3) := List.span pyDigit r2
    if b.isEmpty then none else
    match r3 with
    | '.' :: r4 =>
      let (c, r5) := List.span pyDigit r4
      if c.isEmpty then none else
      if r5.isEmpty || r5 == ['\n'] then some (a, b, c) else none
    | _ => none
  | _ => none

/-- Embedding of parse_version from scripts/bump_version.py: match the
anchored semver regex and convert the three groups with int(), raising
ValueError with the offending string otherwise. -/
def parse_version (version : String) : Except PyErr (Nat × Nat × Nat) :=
  match semverGroups version.data with
  | some (a, b, c) => .ok (digitsToNat a, digitsToNat b, digitsToNat c)
  | none => .error (.valueError ("Invalid semver format: " ++ version))

/-- Embedding of the f-string that renders the new version. -/
def formatVersion (major minor patch : Nat) : String :=
  toString major ++ "." ++ toString minor ++ "." ++ toString patch

/-- Embedding of increment_version from scripts/bump_version.py.
(The Python message for an unknown level quotes the level value; the
quotation marks are left out of the modelled message.) -/
def increment_version (version level : String) : Except PyErr String :=
  match parse_version version with
  | .error e => .error e
  | .ok (major, minor, patch) =>
    if level = "patch" then .ok (formatVersion major minor (patch + 1))
    else if level = "minor" then .ok (formatVersion major (minor + 1) 0)
    else if level = "major" then .ok (formatVersion (major + 1) 0 0)
    else .error (.valueError ("Unknown level " ++ level ++ ". Use: patch, minor, or major"))

/-- Model of the JSON values produced by json.load.  Numeric literals are
modelled as integers: the manifests in scope carry only strings, objects
and opaque scalar fields, and no claim distinguishes numeric encodings. -/
inductive JValue where
  | jnull
  | jbool (b : Bool)
  | jnum (n : Int)
  | jstr (s : String)
  | jarr (elems : List JValue)
  | jobj (fields : List (String × JValue))

/-- Content of a file on disk, at the granularity the claims need: either
bytes that json.load rejects, or bytes whose JSON parse is a given value.
The updater never inspects bytes other than through json.load, the claims
about unchanged files assert that no write happened at all, and the claim
about the rewritten file allows formatting to differ, so this abstraction
of the byte-level codec loses nothing that a claim mentions. -/
inductive Content where
  | invalid (raw : String)
  | valid (v : JValue)

/-- A file-system tree: regular files with content, directories with named
children, and special files (sockets, fifos) that are neither. -/
inductive Entry where
  | file (c : Content)
  | dir (children : List (String × Entry))
  | other

/-- Paths are lists of components relative to the modelled root, mirroring
the parts view of a pathlib Path. -/
abbrev FsPath := List String

/-- Rendering of a path the way str(Path) prints it, for error messages. -/
def pathJoin (p : FsPath) : String :=
  match p with
  | [] => "."
  | _ => String.intercalate "/" p

/-- Resolve a path in the tree, descending through directories only, the
way the OS resolves each component of a pathlib operation. -/
def Entry.lookup : Entry → FsPath → Option Entry
  | e, [] => some e
  | .dir cs, n :: rest =>
    match List.lookup n cs with
    | some e => e.lookup rest
    | none => none
  | _, _ :: _ => none

/-- Replace the first child with the given name, or append a new one:
the directory-entry update performed by creating or truncating a file. -/
def setChild : List (String × Entry) → String → Entry → List (String × Entry)
  | [], n, e => [(n, e)]
  | (m, x) :: rest, n, e =>
    if m = n then (n, e) :: rest else (m, x) :: setChild rest n e

/-- Model of open(path, w) followed by a complete write: create or
overwrite a regular file.  Returns none where the OS call raises: a
missing or non-directory ancestor, or an existing non-regular entry at the
target. -/
def Entry.setFile : Entry → FsPath → Content → Option Entry
  | .dir cs, [n], c =>
    match List.lookup n cs with
    | some (.file _) => some (.dir (setChild cs n (.file c)))
    | none => some (.dir (setChild cs n (.file c)))
    | some _ => none
  | .dir cs, n :: n2 :: rest, c =>
    match List.lookup n cs with
    | some e =>
      match e.setFile (n2 :: rest) c with
      | some e2 => some (.dir (setChild cs n e2))
      | none => none
    | none => none
  | _, _, _ => none

/-- Remove the entry at a path if present; a no-op otherwise. -/
def Entry.removeAt : Entry → FsPath → Entry
  | .dir cs, [n] => .dir (cs.eraseP (fun x => x.1 == n))
  | .dir cs, n :: n2 :: rest =>
    .dir (cs.map (fun x => if x.1 = n then (x.1, x.2.removeAt (n2 :: rest)) else x))
  | e, _ => e

/-- Model of os.replace (Path.replace): atomically rename src onto dst.
Fails where the OS call raises without effect (src not a regular file, or
dst not writable as a regular file). -/
def Entry.replaceFile (fs : Entry) (src dst : FsPath) : Option Entry :=
  match fs.lookup src with
  | some (.file c) => (fs.removeAt src).setFile dst c
  | _ => none

/-- Python truthiness of a JSON value, as used by the if-not check on the
version field. -/
def pyFalsy : JValue → Bool
  | .jnull => true
  | .jbool b => !b
  | .jnum n => n == 0
  | .jstr s => s == ""
  | .jarr elems => elems.isEmpty
  | .jobj fields => fields.isEmpty

/-- Truthiness of dict.get output: None (missing key) is falsy. -/
def pyFalsyOpt : Option JValue → Bool
  | none => true
  | some v => pyFalsy v

/-- Model of assigning data[k] = v on the dict parsed from JSON: an
existing key keeps its position, a new key is appended. -/
def jsonSetKey : List (String × JValue) → String → JValue → List (String × JValue)
  | [], k, v => [(k, v)]
  | (k2, v2) :: rest, k, v =>
    if k2 = k then (k2, v) :: rest else (k2, v2) :: jsonSetKey rest k v

/-- Strict comparison of characters by code point, as Python compares the
characters of two strings. -/
def charLtb (c d : Char) : Bool := decide (c.toNat < d.toNat)

/-- Strict lexicographic comparison of character lists: Python string
comparison. -/
def strLtChars : List Char → List Char → Bool
  | [], [] => false
  | [], _ :: _ => true
  | _ :: _, [] => false
  | a :: as, b :: bs =>
    if charLtb a b then true else if charLtb b a then false else strLtChars as bs

/-- Python string comparison on the modelled strings. -/
def strLtb (a b : String) : Bool := strLtChars a.data b.data

/-- Non-strict lexicographic order on component lists: how sorted() orders
pathlib Paths, which compare by their tuple of parts (each part a string),
not by the joined path string. -/
def pathLeb : FsPath → FsPath → Bool
  | [], _ => true
  | _ :: _, [] => false
  | a :: as, b :: bs =>
    if strLtb a b then true else if strLtb b a then false else pathLeb as bs

/-- The path order as a relation, for the sorting lemmas. -/
def pathLe (p q : FsPath) : Prop := pathLeb p q = true

instance : DecidableRel pathLe := fun p q => instDecidableEqBool (pathLeb p q) true

/-- The fixed manifest file name that the locator searches for. -/
def manifestName : String := "devcontainer-template.json"

mutual
/-- Relative paths of every entry named name strictly below this entry:
the matches of Path.rglob(name), which descends through directories and
matches directory entries of any kind (regular files, directories,
special files). -/
def entryMatches (name : String) : Entry → List FsPath
  | .dir cs => childrenMatches name cs
  | _ => []

/-- The rglob matches contributed by a list of directory children. -/
def childrenMatches (name : String) : List (String × Entry) → List FsPath
  | [] => []
  | (n, e) :: rest =>
    ((if n = name then [[n]] else []) ++ (entryMatches name e).map (n :: ·))
      ++ childrenMatches name rest
end

/-- Embedding of find_templates from scripts/bump_version.py.  The target
resolves to an entry; a regular file named exactly like the manifest is
returned alone; a directory is searched recursively with rglob and the
matches are returned sorted by the pathlib Path order; everything else is
an error with the same exception class as the source. -/
def find_templates (fs : Entry) (target : FsPath) : Except PyErr (List FsPath) :=
  match fs.lookup target with
  | none => .error (.fileNotFoundError ("Target not found: " ++ pathJoin target))
  | some (.file _) =>
    if (target.getLast?).getD "" = manifestName then .ok [target]
    else .error (.valueError ("Invalid target: " ++ pathJoin target))
  | some (.dir cs) =>
    let templates :=
      List.insertionSort pathLe ((childrenMatches manifestName cs).map (target ++ ·))
    if templates.isEmpty then
      .error (.valueError ("No templates found in " ++ pathJoin target))
    else .ok templates
  | some .other => .error (.valueError ("Invalid target: " ++ pathJoin target))

def orderDemoTree : Entry :=
  .dir [("a", .dir [("x", .dir [(manifestName, .file (.valid (.jobj [])))])]),
        ("a.b", .dir [(manifestName, .file (.valid (.jobj [])))])]

def dirMatchTree : Entry := .dir [("sub", .dir [(manifestName, .dir [])])]

/-- Fault injection for the OS calls made by one updater run.  A set flag
makes the corresponding call raise OSError at its point in the sequence;
junk is whatever bytes a faulted write left in the temp file. -/
structure Eff where
  readFault : Bool
  writeFault : Bool
  junk : Content
  reparseFault : Bool
  renameFault : Bool

/-- A fault-free run, for concrete scenarios. -/
def noFaults : Eff := ⟨false, false, .invalid "", false, false⟩

/-- Model of Path.with_suffix applied to one file name with the suffix
.tmp: drop the existing suffix if there is one (a dot that is neither the
leading character nor the final character), then append .tmp. -/
def withSuffixTmpName (name : String) : String :=
  let cs := name.data
  match cs.enum.foldl (fun acc x => if x.2 = '.' then some x.1 else acc) none with
  | some i =>
    if 0 < i ∧ i + 1 < cs.length then String.mk (cs.take i) ++ ".tmp"
    else name ++ ".tmp"
  | none => name ++ ".tmp"

/-- The temp-file path used by the updater: the original path with its
final component passed through with_suffix. -/
def withSuffixTmp : FsPath → FsPath
  | [] => []
  | [n] => [withSuffixTmpName n]
  | n :: rest => n :: withSuffixTmp rest

/-- The body of update_template_version, before its exception handlers:
read and json.load the file, check the version field, compute the new
version, and unless dry_run is set write the temp file, re-parse it, and
rename it onto the original.  The first component is the outcome the try
block produces (a return value or a raised exception); the second is the
file system as it stands when the body finishes or raises. -/
def updateBody (eff : Eff) (fs : Entry) (template_file : FsPath)
    (level : String) (dry_run : Bool) : Except PyErr Bool × Entry :=
  match fs.lookup template_file with
  | none => (.error (.fileNotFoundError ("No such file: " ++ pathJoin template_file)), fs)
  | some (.dir _) => (.error .osError, fs)
  | some .other => (.error .osError, fs)
  | some (.file c) =>
    if eff.readFault then (.error .osError, fs) else
    match c with
    | .invalid _ => (.error .jsonDecodeError, fs)
    | .valid (.jobj fields) =>
      let current_version := List.lookup "version" fields
      if pyFalsyOpt current_version then (.ok false, fs)
      else
        match current_version with
        | some (.jstr cv) =>
          match increment_version cv level with
          | .error _ => (.ok false, fs)
          | .ok new_version =>
            if dry_run then (.ok true, fs)
            else
              let fields2 := jsonSetKey fields "version" (.jstr new_version)
              let temp_file := withSuffixTmp template_file
              if eff.writeFault then
                match fs.setFile temp_file eff.junk with
                | some fs1 => (.error .osError, fs1)
                | none => (.error .osError, fs)
              else
                match fs.setFile temp_file (.valid (.jobj fields2)) with
                | none => (.error .osError, fs)
                | some fs1 =>
                  if eff.reparseFault then (.error .osError, fs1)
                  else
                    match fs1.lookup temp_file with
                    | some (.file (.valid _)) =>
                      if eff.renameFault then (.error .osError, fs1)
                      else
                        match fs1.replaceFile temp_file template_file with
                        | some fs2 => (.ok true, fs2)
                        | none => (.error .osError, fs1)
                    | some (.file (.invalid _)) => (.error .jsonDecodeError, fs1)
                    | _ => (.error .osError, fs1)
        | some _ => (.error .typeError, fs)
        | none => (.ok false, fs)
    | .valid _ => (.error .typeError, fs)

/-- Embedding of update_template_version from scripts/bump_version.py:
the body above wrapped in the except handlers, which turn every raised
exception into a False result and let return values through. -/
def update_template_version (eff : Eff) (fs : Entry) (template_file : FsPath)
    (level : String) (dry_run : Bool) : Bool × Entry :=
  match updateBody eff fs template_file level dry_run with
  | (.ok b, fs2) => (b, fs2)
  | (.error _, fs2) => (false, fs2)

def oneTemplateTree : Entry :=
  .dir [("t", .dir [(manifestName,
    .file (.valid (.jobj [("id", .jstr "t"), ("version", .jstr "1.0.0")])))])]

/-- Outcomes of the git subprocess calls made by commit_changes: whether
the git binary exists, and the exit status of the add and commit steps. -/
structure GitEnv where
  found : Bool
  addOk : Bool
  commitOk : Bool

/-- Embedding of commit_changes from scripts/bump_version.py: stage the
manifest pattern, then commit; a missing git binary or a non-zero exit of
either call yields False, success yields True. -/
def commit_changes (git : GitEnv) : Bool :=
  git.found && git.addOk && git.commitOk

/-- The per-template update loop of main in scripts/bump_version.py: run
the updater on each located template in order, threading the file system,
with the fault environment of the i-th run supplied by effAt i.  Returns
the list of per-file results and the final file system. -/
def runUpdates (effAt : Nat → Eff) (level : String) (dry_run : Bool) :
    Nat → Entry → List FsPath → List Bool × Entry
  | _, fs, [] => ([], fs)
  | i, fs, t :: rest =>
    let r := update_template_version (effAt i) fs t level dry_run
    let rec2 := runUpdates effAt level dry_run (i + 1) r.2 rest
    (r.1 :: rec2.1, rec2.2)

namespace BumpVersion

/-- Embedding of main from scripts/bump_version.py: locate the templates
(locator errors exit 1), update each one counting failures, then, when
commit was requested, dry-run is off and nothing failed, run the commit
step and count its failure too; exit 0 exactly when the final failure
count is zero. -/
def main (effAt : Nat → Eff) (git : GitEnv) (fs : Entry) (level : String)
    (target : FsPath) (dry_run commit : Bool) : Nat :=
  match find_templates fs target with
  | .error _ => 1
  | .ok templates =>
    let batch := runUpdates effAt level dry_run 0 fs templates
    let failed := batch.1.count false
    let failed2 :=
      if commit && !dry_run && failed == 0 then
        if commit_changes git then failed else failed + 1
      else failed
    if failed2 = 0 then 0 else 1

end BumpVersion

/-- One subprocess invocation recorded by the publish orchestrator: the
bump child with the flags it mirrors, or the devcontainer publish call. -/
inductive Step where
  | bump (level : String) (target : String) (flag : String)
  | publish (target registry ns : String)

/-- Outcomes of the orchestrator's children: exit status of the bump
child, presence of the devcontainer binary, and exit status of the
publish call. -/
structure PubEnv where
  bumpOk : Bool
  publishFound : Bool
  publishOk : Bool

namespace PublishTemplates

/-- Embedding of main from scripts/publish_templates.py: when a version
bump is requested, invoke the bump script with the mirrored dry-run or
commit flag and abort with exit 1 on a non-zero child exit; then, unless
this is a dry run, invoke the publish subprocess, turning a missing binary
or non-zero exit into exit 1; a dry run skips the publish call.  Returns
the exit code together with the ordered trace of subprocess invocations
attempted. -/
def main (env : PubEnv) (update_version : Bool) (level target registry ns : String)
    (dry_run : Bool) : Nat × List Step :=
  let afterBump : List Step :=
    if update_version then
      [Step.bump level target (if dry_run then "--dry-run" else "--commit")]
    else []
  if update_version && !env.bumpOk then (1, afterBump)
  else
    if dry_run then (0, afterBump)
    else
      let tr := afterBump ++ [Step.publish target registry ns]
      if !env.publishFound then (1, tr)
      else if !env.publishOk then (1, tr)
      else (0, tr)

end PublishTemplates

lemma zero_or_one_of_ite (c : Prop) [Decidable c] :
    (if c then (0 : Nat) else 1) = 0 ∨ (if c then (0 : Nat) else 1) = 1 := by
  split
  · exact Or.inl rfl
  · exact Or.inr rfl

lemma count_false_eq_zero_iff (l : List Bool) :
    l.count false = 0 ↔ ∀ b ∈ l, b = true := by
  rw [List.count_eq_zero]
  constructor
  · intro h b hb
    cases b with
    | true => rfl
    | false => exact absurd hb h
  · intro h hf
    exact Bool.false_ne_true (h false hf)

lemma increment_rules_of_parse (s : String) (M m p : Nat)
    (h : parse_version s = .ok (M, m, p)) :
    increment_version s "patch" = .ok (formatVersion M m (p + 1)) ∧
    increment_version s "minor" = .ok (formatVersion M (m + 1) 0) ∧
    increment_version s "major" = .ok (formatVersion (M + 1) 0 0) := by
  refine ⟨?_, ?_, ?_⟩ <;> simp [increment_version, h]

/-- C2: For every version string that parses to components, increment
with level patch yields the canonical string of (major, minor, patch + 1),
with level minor the canonical string of (major, minor + 1, 0), and with
level major the canonical string of (major + 1, 0, 0). -/
theorem increment_version_bump_rules (s : String) (M m p : Nat)
    (h : parse_version s = .ok (M, m, p)) :
    increment_version s "patch" = .ok (formatVersion M m (p + 1)) ∧
    increment_version s "minor" = .ok (formatVersion M (m + 1) 0) ∧
    increment_version s "major" = .ok (formatVersion (M + 1) 0 0) :=
  increment_rules_of_parse s M m p h

theorem increment_version_bump_rules_witness :
    increment_version "1.2.3" "patch" = .ok "1.2.4" ∧
    increment_version "1.2.3" "minor" = .ok "1.3.0" ∧
    increment_version "1.2.3" "major" = .ok "2.0.0" :=
  increment_version_bump_rules "1.2.3" 1 2 3 rfl

/-- C9: Whenever the orchestrator's version-bump step is requested and the
bump child exits non-zero, the orchestrator exits 1 and the
registry-publish subprocess is never invoked in that run. -/
theorem publish_aborts_on_bump_failure (env : PubEnv)
    (level target registry ns : String) (dry_run : Bool)
    (hbump : env.bumpOk = false) :
    (PublishTemplates.main env true level target registry ns dry_run).1 = 1 ∧
    ∀ t r n, Step.publish t r n ∉
      (PublishTemplates.main env true level target registry ns dry_run).2 := by
  constructor
  · simp [PublishTemplates.main, hbump]
  · intro t r n
    simp [PublishTemplates.main, hbump]

theorem publish_aborts_on_bump_failure_witness :
    (PublishTemplates.main ⟨false, true, true⟩ true "patch" "./src" "ghcr.io" "o/r" false).1 = 1 ∧
    Step.publish "./src" "ghcr.io" "o/r" ∉
      (PublishTemplates.main ⟨false, true, true⟩ true "patch" "./src" "ghcr.io" "o/r" false).2 := by
  have h := publish_aborts_on_bump_failure ⟨false, true, true⟩ "patch" "./src" "ghcr.io" "o/r" false rfl
  exact ⟨h.1, h.2 "./src" "ghcr.io" "o/r"⟩

/-- C10: The updater is total at its public interface: every exception the
body raises, including injected file-system faults during read, write,
re-parse, or rename, is caught and surfaces as a False result, and a
normal return value passes through unchanged; no exception escapes. -/
theorem update_template_version_total (eff : Eff) (fs : Entry) (p : FsPath)
    (level : String) (dry_run : Bool) :
    (∀ e, (updateBody eff fs p level dry_run).1 = .error e →
      update_template_version eff fs p level dry_run =
        (false, (updateBody eff fs p level dry_run).2)) ∧
    (∀ b, (updateBody eff fs p level dry_run).1 = .ok b →
      update_template_version eff fs p level dry_run =
        (b, (updateBody eff fs p level dry_run).2)) := by
  unfold update_template_version
  rcases hb : updateBody eff fs p level dry_run with ⟨res, fs2⟩
  cases res with
  | ok b => exact ⟨fun e he => by simp at he, fun b2 hb2 => by simp at hb2; subst hb2; rfl⟩
  | error e => exact ⟨fun e2 _ => rfl, fun b2 hb2 => by simp at hb2⟩

theorem update_template_version_total_witness :
    (updateBody noFaults (Entry.dir []) ["x"] "patch" false).1 =
      .error (.fileNotFoundError "No such file: x") ∧
    update_template_version noFaults (Entry.dir []) ["x"] "patch" false =
      (false, Entry.dir []) :=
  ⟨rfl, (update_template_version_total noFaults (Entry.dir []) ["x"] "patch" false).1
    (.fileNotFoundError "No such file: x") rfl⟩

/-- C8: Given that the locator succeeded on the target, the version-bump
entry point exits 0 exactly when every per-file update in the batch
returned success and, whenever auto-commit was requested with dry-run off,
the commit step also succeeded; in every other case it exits 1 (the exit
code is always 0 or 1, so the negation of exit 0 is exit 1). -/
theorem bump_main_exit_code (effAt : Nat → Eff) (git : GitEnv) (fs : Entry)
    (level : String) (target : FsPath) (dry_run commit : Bool) (ts : List FsPath)
    (hfind : find_templates fs target = .ok ts) :
    (BumpVersion.main effAt git fs level target dry_run commit = 0 ∨
     BumpVersion.main effAt git fs level target dry_run commit = 1) ∧
    (BumpVersion.main effAt git fs level target dry_run commit = 0 ↔
      ((∀ b ∈ (runUpdates effAt level dry_run 0 fs ts).1, b = true) ∧
       (commit = true ∧ dry_run = false → commit_changes git = true))) := by
  constructor
  · unfold BumpVersion.main
    rw [hfind]
    simp only []
    exact zero_or_one_of_ite _
  unfold BumpVersion.main
  rw [hfind]
  simp only []
  rw [← count_false_eq_zero_iff]
  rcases hcnt : (runUpdates effAt level dry_run 0 fs ts).1.count false with _ | k
  · rcases hco : commit with _ | _ <;> rcases hdr : dry_run with _ | _ <;>
      rcases hgit : commit_changes git with _ | _ <;> simp [hgit]
  · rcases hco : commit with _ | _ <;> rcases hdr : dry_run with _ | _ <;> simp

theorem bump_main_exit_code_witness :
    BumpVersion.main (fun _ => noFaults) ⟨true, true, true⟩ oneTemplateTree "patch"
      [] false true = 0 := by
  have h := bump_main_exit_code (fun _ => noFaults) ⟨true, true, true⟩ oneTemplateTree
    "patch" [] false true [["t", manifestName]] rfl
  refine h.2.mpr ⟨?_, fun _ => rfl⟩
  intro b hb
  have : (runUpdates (fun _ => noFaults) "patch" false 0 oneTemplateTree
      [["t", manifestName]]).1 = [true] := rfl
  rw [this] at hb
  simpa using hb

lemma parse_version_ok_ne_empty {v : String} {t : Nat × Nat × Nat}
    (h : parse_version v = .ok t) : (v == "") = false := by
  rcases hb : v == "" with _ | _
  · rfl
  · have hv : v = "" := eq_of_beq hb
    subst hv
    exact absurd h (by intro hco; cases hco)

lemma increment_ok_of_valid_level {v : String} {t : Nat × Nat × Nat} (level : String)
    (h : parse_version v = .ok t)
    (hl : level = "patch" ∨ level = "minor" ∨ level = "major") :
    ∃ s2, increment_version v level = .ok s2 := by
  obtain ⟨M, m, p⟩ := t
  rcases hl with rfl | rfl | rfl
  · exact ⟨_, (increment_rules_of_parse v M m p h).1⟩
  · exact ⟨_, (increment_rules_of_parse v M m p h).2.1⟩
  · exact ⟨_, (increment_rules_of_parse v M m p h).2.2⟩

/-- C6: On a manifest whose content is a valid JSON object with a
well-formed version field, and a readable file with a valid bump level, a
dry-run update reports success and returns the file system exactly as it
was: no write, temp-file creation, or rename happens. -/
theorem update_dry_run_pure (eff : Eff) (fs : Entry) (p : FsPath) (level : String)
    (fields : List (String × JValue)) (v : String)
    (hread : eff.readFault = false)
    (hfile : fs.lookup p = some (.file (.valid (.jobj fields))))
    (hver : List.lookup "version" fields = some (.jstr v))
    (hparse : ∃ t, parse_version v = .ok t)
    (hlevel : level = "patch" ∨ level = "minor" ∨ level = "major") :
    update_template_version eff fs p level true = (true, fs) := by
  obtain ⟨t, ht⟩ := hparse
  obtain ⟨s2, hs2⟩ := increment_ok_of_valid_level level ht hlevel
  have hne : (v == "") = false := parse_version_ok_ne_empty ht
  unfold update_template_version updateBody
  rw [hfile, hread]
  simp only [Bool.false_eq_true, if_false, hver, pyFalsyOpt, pyFalsy, hne, hs2]
  simp

/-- Witness for the dry-run claim at a concrete one-template tree. -/
theorem update_dry_run_pure_witness :
    update_template_version noFaults oneTemplateTree ["t", manifestName] "patch" true =
      (true, oneTemplateTree) :=
  update_dry_run_pure noFaults oneTemplateTree ["t", manifestName] "patch"
    [("id", .jstr "t"), ("version", .jstr "1.0.0")] "1.0.0"
    rfl rfl rfl ⟨(1, 0, 0), rfl⟩ (Or.inl rfl)

lemma setChild_lookup_self (cs : List (String × Entry)) (n : String) (e : Entry) :
    List.lookup n (setChild cs n e) = some e := by
  induction cs with
  | nil => simp [setChild]
  | cons hd rest ih =>
    obtain ⟨m, x⟩ := hd
    by_cases hm : m = n
    · subst hm
      simp [setChild]
    · simp [setChild, hm, List.lookup_cons, beq_false_of_ne (Ne.symm hm), ih]

lemma setChild_lookup_other (cs : List (String × Entry)) (n k : String) (e : Entry)
    (hk : k ≠ n) : List.lookup k (setChild cs n e) = List.lookup k cs := by
  induction cs with
  | nil => simp [setChild, List.lookup_cons, beq_false_of_ne hk]
  | cons hd rest ih =>
    obtain ⟨m, x⟩ := hd
    by_cases hm : m = n
    · subst hm
      simp [setChild, List.lookup_cons, beq_false_of_ne hk]
    · simp [setChild, hm, List.lookup_cons, ih]

lemma setFile_lookup_self (q : FsPath) : ∀ (fs fs1 : Entry) (c : Content),
    fs.setFile q c = some fs1 → fs1.lookup q = some (.file c) := by
  induction q with
  | nil => intro fs fs1 c h; cases fs <;> simp [Entry.setFile] at h
  | cons n rest ih =>
    intro fs fs1 c h
    cases fs with
    | file _ => simp [Entry.setFile] at h
    | other => simp [Entry.setFile] at h
    | dir cs =>
      cases rest with
      | nil =>
        rw [Entry.setFile] at h
        split at h
        · injection h with h1
          subst h1
          rw [Entry.lookup, setChild_lookup_self]
          rfl
        · injection h with h1
          subst h1
          rw [Entry.lookup, setChild_lookup_self]
          rfl
        · cases h
      | cons n2 rest2 =>
        rw [Entry.setFile] at h
        split at h
        · rename_i e0 hl
          split at h
          · rename_i e2 hs
            injection h with h1
            subst h1
            rw [Entry.lookup, setChild_lookup_self]
            exact ih e0 e2 c hs
          · cases h
        · cases h

lemma lookup_jsonSetKey_self (l : List (String × JValue)) (k : String) (v : JValue) :
    List.lookup k (jsonSetKey l k v) = some v := by
  induction l with
  | nil => simp [jsonSetKey]
  | cons hd rest ih =>
    obtain ⟨k2, v2⟩ := hd
    by_cases hk : k2 = k
    · subst hk
      simp [jsonSetKey]
    · simp [jsonSetKey, hk, List.lookup_cons, beq_false_of_ne (Ne.symm hk), ih]

lemma lookup_jsonSetKey_other (l : List (String × JValue)) (k k2 : String) (v : JValue)
    (hk : k2 ≠ k) : List.lookup k2 (jsonSetKey l k v) = List.lookup k2 l := by
  induction l with
  | nil => simp [jsonSetKey, List.lookup_cons, beq_false_of_ne hk]
  | cons hd rest ih =>
    obtain ⟨k3, v3⟩ := hd
    by_cases hk3 : k3 = k
    · subst hk3
      simp [jsonSetKey, List.lookup_cons, beq_false_of_ne hk]
    · simp [jsonSetKey, hk3, List.lookup_cons, ih]

lemma parse_ok_of_increment_ok {v level nv : String}
    (h : increment_version v level = .ok nv) : ∃ t, parse_version v = .ok t := by
  unfold increment_version at h
  rcases hp : parse_version v with e | t
  · rw [hp] at h; cases h
  · exact ⟨t, rfl⟩

lemma updateBody_success_shape (eff : Eff) (fs : Entry) (p : FsPath) (level : String)
    (fields : List (String × JValue)) (v nv : String)
    (hfile : fs.lookup p = some (.file (.valid (.jobj fields))))
    (hver : List.lookup "version" fields = some (.jstr v))
    (hinc : increment_version v level = .ok nv)
    (hne : (v == "") = false) :
    ∀ res fs2, updateBody eff fs p level false = (res, fs2) → res = .ok true →
      fs2.lookup p =
        some (.file (.valid (.jobj (jsonSetKey fields "version" (.jstr nv))))) := by
  intro res fs2 hb hres
  subst hres
  rcases hrf : eff.readFault with _ | _
  · rcases hwf : eff.writeFault with _ | _
    · simp only [updateBody, hfile, hrf, hwf, hver, pyFalsyOpt, pyFalsy, hne,
        hinc, Bool.false_eq_true, if_false] at hb
      rcases hsf : fs.setFile (withSuffixTmp p)
          (.valid (.jobj (jsonSetKey fields "version" (.jstr nv)))) with _ | fs1
      · rw [hsf] at hb
        cases hb
      · rw [hsf] at hb
        simp only [] at hb
        rcases hpf : eff.reparseFault with _ | _
        · rw [hpf] at hb
          have hlk := setFile_lookup_self _ _ _ _ hsf
          rw [hlk] at hb
          simp only [Bool.false_eq_true, if_false] at hb
          rcases hnf : eff.renameFault with _ | _
          · rw [hnf] at hb
            simp only [Bool.false_eq_true, if_false] at hb
            rcases hrep : fs1.replaceFile (withSuffixTmp p) p with _ | fs3
            · rw [hrep] at hb
              cases hb
            · rw [hrep] at hb
              injection hb with h1 h2
              subst h2
              unfold Entry.replaceFile at hrep
              rw [hlk] at hrep
              exact setFile_lookup_self _ _ _ _ hrep
          · rw [hnf] at hb
            simp only [if_true] at hb
            cases hb
        · rw [hpf] at hb
          simp only [if_true] at hb
          cases hb
    · simp only [updateBody, hfile, hrf, hwf, hver, pyFalsyOpt, pyFalsy, hne,
        hinc, Bool.false_eq_true, if_false, if_true] at hb
      rcases hsf : fs.setFile (withSuffixTmp p) eff.junk with _ | fs1 <;>
        rw [hsf] at hb <;> cases hb
  · simp only [updateBody, hfile, hrf, if_true] at hb
    cases hb

/-- C7: After a successful non-dry-run update of a manifest that is a
valid JSON object with a well-formed version field, the on-disk JSON
object at the manifest path has its version field equal to the
incremented version, and every other key is still present and maps to the
same value as before (key order and byte formatting are below the
granularity of this model, which identifies JSON-equal contents). -/
theorem update_success_rewrites_version (eff : Eff) (fs : Entry) (p : FsPath)
    (level : String) (fields : List (String × JValue)) (v nv : String)
    (hfile : fs.lookup p = some (.file (.valid (.jobj fields))))
    (hver : List.lookup "version" fields = some (.jstr v))
    (hinc : increment_version v level = .ok nv)
    (hupd : (update_template_version eff fs p level false).1 = true) :
    ∃ fields2,
      (update_template_version eff fs p level false).2.lookup p =
        some (.file (.valid (.jobj fields2))) ∧
      List.lookup "version" fields2 = some (.jstr nv) ∧
      ∀ k, k ≠ "version" → List.lookup k fields2 = List.lookup k fields := by
  obtain ⟨t, ht⟩ := parse_ok_of_increment_ok hinc
  have hne : (v == "") = false := parse_version_ok_ne_empty ht
  refine ⟨jsonSetKey fields "version" (.jstr nv), ?_,
    lookup_jsonSetKey_self fields "version" (.jstr nv),
    fun k hk => lookup_jsonSetKey_other fields "version" k (.jstr nv) hk⟩
  unfold update_template_version at hupd ⊢
  rcases hb : updateBody eff fs p level false with ⟨res, fs2⟩
  cases res with
  | error e =>
    rw [hb] at hupd
    simp at hupd
  | ok b =>
    rw [hb] at hupd
    simp only [] at hupd
    subst hupd
    exact updateBody_success_shape eff fs p level fields v nv hfile hver hinc hne
      (.ok true) fs2 hb rfl

theorem update_success_rewrites_version_witness :
    ∃ fields2,
      (update_template_version noFaults oneTemplateTree ["t", manifestName]
        "patch" false).2.lookup ["t", manifestName] =
        some (.file (.valid (.jobj fields2))) ∧
      List.lookup "version" fields2 = some (.jstr "1.0.1") ∧
      ∀ k, k ≠ "version" →
        List.lookup k fields2 =
          List.lookup k [("id", JValue.jstr "t"), ("version", JValue.jstr "1.0.0")] :=
  update_success_rewrites_version noFaults oneTemplateTree ["t", manifestName] "patch"
    [("id", .jstr "t"), ("version", .jstr "1.0.0")] "1.0.0" "1.0.1" rfl rfl rfl rfl

lemma exists_append_of_getLast (p : FsPath) (n : String) (h : p.getLast? = some n) :
    ∃ d, p = d ++ [n] := by
  induction p with
  | nil => cases h
  | cons x rest ih =>
    cases rest with
    | nil =>
      simp only [List.getLast?_singleton, Option.some.injEq] at h
      exact ⟨[], by rw [h]; rfl⟩
    | cons y rest2 =>
      rw [List.getLast?_cons_cons] at h
      obtain ⟨d, hd⟩ := ih h
      exact ⟨x :: d, by rw [List.cons_append, ← hd]⟩

lemma withSuffixTmp_append (d : List String) (n : String) :
    withSuffixTmp (d ++ [n]) = d ++ [withSuffixTmpName n] := by
  induction d with
  | nil => rfl
  | cons x d2 ih =>
    cases d2 with
    | nil => rfl
    | cons y d3 =>
      simp only [List.cons_append] at ih ⊢
      rw [withSuffixTmp, ih]
      intro hc
      cases hc

lemma lookup_setFile_sibling :
    ∀ (d : List String) (fs fs1 : Entry) (n n2 : String) (c : Content), n ≠ n2 →
      fs.setFile (d ++ [n2]) c = some fs1 →
      fs1.lookup (d ++ [n]) = fs.lookup (d ++ [n]) := by
  intro d
  induction d with
  | nil =>
    intro fs fs1 n n2 c hne h
    cases fs with
    | file _ => cases h
    | other => cases h
    | dir cs =>
      rw [List.nil_append] at h
      rw [Entry.setFile] at h
      split at h
      · injection h with h1
        subst h1
        rw [List.nil_append, Entry.lookup, Entry.lookup,
          setChild_lookup_other cs n2 n (.file c) hne]
      · injection h with h1
        subst h1
        rw [List.nil_append, Entry.lookup, Entry.lookup,
          setChild_lookup_other cs n2 n (.file c) hne]
      · cases h
  | cons x d2 ih =>
    intro fs fs1 n n2 c hne h
    cases fs with
    | file _ => cases h
    | other => cases h
    | dir cs =>
      rw [List.cons_append] at h
      cases d2 with
      | nil =>
        rw [List.nil_append] at h
        rw [Entry.setFile] at h
        split at h
        · rename_i e0 hl
          split at h
          · rename_i e2 hs
            injection h with h1
            subst h1
            rw [List.cons_append, Entry.lookup, Entry.lookup,
              setChild_lookup_self, hl]
            exact ih e0 e2 n n2 c hne hs
          · cases h
        · cases h
      | cons y d3 =>
        rw [List.cons_append] at h
        rw [Entry.setFile] at h
        split at h
        · rename_i e0 hl
          split at h
          · rename_i e2 hs
            injection h with h1
            subst h1
            rw [List.cons_append, List.cons_append, Entry.lookup, Entry.lookup,
              setChild_lookup_self, hl]
            exact ih e0 e2 n n2 c hne hs
          · cases h
        · cases h

lemma updateBody_failure_preserves (eff : Eff) (fs : Entry) (d : List String)
    (level : String) :
    ∀ res fs2, updateBody eff fs (d ++ [manifestName]) level false = (res, fs2) →
      res ≠ .ok true →
      fs2.lookup (d ++ [manifestName]) = fs.lookup (d ++ [manifestName]) := by
  intro res fs2 hb hres
  have htmp : withSuffixTmp (d ++ [manifestName]) = d ++ [withSuffixTmpName manifestName] :=
    withSuffixTmp_append d manifestName
  have hnn : manifestName ≠ withSuffixTmpName manifestName := by decide
  rcases hlk : fs.lookup (d ++ [manifestName]) with _ | e
  · simp only [updateBody, hlk] at hb
    cases hb
    exact hlk
  · cases e with
    | dir cs =>
      simp only [updateBody, hlk] at hb
      cases hb
      exact hlk
    | other =>
      simp only [updateBody, hlk] at hb
      cases hb
      exact hlk
    | file c =>
      rcases hrf : eff.readFault with _ | _
      case false =>
        cases c with
        | invalid raw =>
          simp only [updateBody, hlk, hrf, Bool.false_eq_true, if_false] at hb
          cases hb
          exact hlk
        | valid data =>
          cases data with
          | jnull =>
            simp only [updateBody, hlk, hrf, Bool.false_eq_true, if_false] at hb
            cases hb
            exact hlk
          | jbool b0 =>
            simp only [updateBody, hlk, hrf, Bool.false_eq_true, if_false] at hb
            cases hb
            exact hlk
          | jnum n0 =>
            simp only [updateBody, hlk, hrf, Bool.false_eq_true, if_false] at hb
            cases hb
            exact hlk
          | jstr s0 =>
            simp only [updateBody, hlk, hrf, Bool.false_eq_true, if_false] at hb
            cases hb
            exact hlk
          | jarr l0 =>
            simp only [updateBody, hlk, hrf, Bool.false_eq_true, if_false] at hb
            cases hb
            exact hlk
          | jobj fields =>
            rcases hver : List.lookup "version" fields with _ | vv
            · simp only [updateBody, hlk, hrf, hver, pyFalsyOpt, Bool.false_eq_true,
                if_false, if_true] at hb
              cases hb
              exact hlk
            · rcases hfal : pyFalsy vv with _ | _
              case true =>
                simp only [updateBody, hlk, hrf, hver, pyFalsyOpt, hfal,
                  Bool.false_eq_true, if_false, if_true] at hb
                cases hb
                exact hlk
              case false =>
                cases vv with
                | jnull => cases hfal
                | jbool b0 =>
                  simp only [updateBody, hlk, hrf, hver, pyFalsyOpt, hfal,
                    Bool.false_eq_true, if_false] at hb
                  cases hb
                  exact hlk
                | jnum n0 =>
                  simp only [updateBody, hlk, hrf, hver, pyFalsyOpt, hfal,
                    Bool.false_eq_true, if_false] at hb
                  cases hb
                  exact hlk
                | jarr l0 =>
                  simp only [updateBody, hlk, hrf, hver, pyFalsyOpt, hfal,
                    Bool.false_eq_true, if_false] at hb
                  cases hb
                  exact hlk
                | jobj l0 =>
                  simp only [updateBody, hlk, hrf, hver, pyFalsyOpt, hfal,
                    Bool.false_eq_true, if_false] at hb
                  cases hb
                  exact hlk
                | jstr cv =>
                  rcases hinc : increment_version cv level with e0 | nv
                  · simp only [updateBody, hlk, hrf, hver, pyFalsyOpt, hfal, hinc,
                      Bool.false_eq_true, if_false] at hb
                    cases hb
                    exact hlk
                  · rcases hwf : eff.writeFault with _ | _
                    case true =>
                      rcases hsf : fs.setFile (withSuffixTmp (d ++ [manifestName]))
                          eff.junk with _ | fs1
                      · simp only [updateBody, hlk, hrf, hver, pyFalsyOpt, hfal, hinc,
                          hwf, hsf, Bool.false_eq_true, if_false, if_true] at hb
                        cases hb
                        exact hlk
                      · simp only [updateBody, hlk, hrf, hver, pyFalsyOpt, hfal, hinc,
                          hwf, hsf, Bool.false_eq_true, if_false, if_true] at hb
                        injection hb with h1 h2
                        rw [← h2]
                        rw [htmp] at hsf
                        exact (lookup_setFile_sibling d fs fs1 manifestName
                          (withSuffixTmpName manifestName) eff.junk hnn hsf).trans hlk
                    case false =>
                      rcases hsf : fs.setFile (withSuffixTmp (d ++ [manifestName]))
                          (.valid (.jobj (jsonSetKey fields "version" (.jstr nv)))) with _ | fs1
                      · simp only [updateBody, hlk, hrf, hver, pyFalsyOpt, hfal, hinc,
                          hwf, hsf, Bool.false_eq_true, if_false] at hb
                        cases hb
                        exact hlk
                      · have hsib : fs1.lookup (d ++ [manifestName]) =
                            fs.lookup (d ++ [manifestName]) := by
                          rw [htmp] at hsf
                          exact lookup_setFile_sibling d fs fs1 manifestName
                            (withSuffixTmpName manifestName) _ hnn hsf
                        have hlk2 := setFile_lookup_self _ _ _ _ hsf
                        rcases hpf : eff.reparseFault with _ | _
                        case true =>
                          simp only [updateBody, hlk, hrf, hver, pyFalsyOpt, hfal, hinc,
                            hwf, hsf, hpf, Bool.false_eq_true, if_false, if_true] at hb
                          injection hb with h1 h2
                          rw [← h2]
                          exact hsib.trans hlk
                        case false =>
                          rcases hnf : eff.renameFault with _ | _
                          case true =>
                            simp only [updateBody, hlk, hrf, hver, pyFalsyOpt, hfal, hinc,
                              hwf, hsf, hpf, hlk2, hnf, Bool.false_eq_true, if_false,
                              if_true] at hb
                            cases hb
                            exact hsib.trans hlk
                          case false =>
                            rcases hrep : fs1.replaceFile
                                (withSuffixTmp (d ++ [manifestName]))
                                (d ++ [manifestName]) with _ | fs3
                            · simp only [updateBody, hlk, hrf, hver, pyFalsyOpt, hfal,
                                hinc, hwf, hsf, hpf, hlk2, hnf, hrep, Bool.false_eq_true,
                                if_false] at hb
                              injection hb with h1 h2
                              rw [← h2]
                              exact hsib.trans hlk
                            · simp only [updateBody, hlk, hrf, hver, pyFalsyOpt, hfal,
                                hinc, hwf, hsf, hpf, hlk2, hnf, hrep, Bool.false_eq_true,
                                if_false] at hb
                              cases hb
                              exact absurd rfl hres
      case true =>
        simp only [updateBody, hlk, hrf, if_true] at hb
        cases hb
        exact hlk

/-- C1: For every manifest file (a path whose final component is the fixed
manifest file name), bump level, fault pattern, and dry_run off, if the
updater run reports failure — for any reason: missing or unreadable file,
invalid JSON, missing or malformed version, unknown level, or an injected
fault anywhere in the write, re-parse, rename sequence — then the content
of the original manifest path after the call is identical to its content
before the call; only a successful run can change that path. -/
theorem update_failure_preserves_file (eff : Eff) (fs : Entry) (p : FsPath)
    (level : String) (hname : p.getLast? = some manifestName)
    (hfail : (update_template_version eff fs p level false).1 = false) :
    (update_template_version eff fs p level false).2.lookup p = fs.lookup p := by
  obtain ⟨d, rfl⟩ := exists_append_of_getLast p manifestName hname
  unfold update_template_version at hfail ⊢
  rcases hb : updateBody eff fs (d ++ [manifestName]) level false with ⟨res, fs2⟩
  cases res with
  | ok b =>
    rw [hb] at hfail
    simp only [] at hfail
    subst hfail
    exact updateBody_failure_preserves eff fs d level (.ok false) fs2 hb
      (fun hco => by simp at hco)
  | error e =>
    exact updateBody_failure_preserves eff fs d level (.error e) fs2 hb
      (fun hco => by simp at hco)

theorem update_failure_preserves_file_witness :
    (update_template_version ⟨false, false, .invalid "", false, true⟩ oneTemplateTree
      ["t", manifestName] "patch" false).1 = false ∧
    (update_template_version ⟨false, false, .invalid "", false, true⟩ oneTemplateTree
      ["t", manifestName] "patch" false).2.lookup ["t", manifestName] =
      oneTemplateTree.lookup ["t", manifestName] :=
  ⟨rfl, update_failure_preserves_file ⟨false, false, .invalid "", false, true⟩
    oneTemplateTree ["t", manifestName] "patch" rfl rfl⟩

lemma isEmpty_false_of_ne_nil {l : List Char} (h : l ≠ []) : l.isEmpty = false := by
  cases l with
  | nil => exact absurd rfl h
  | cons x xs => rfl

lemma span_exact (a r : List Char) (ha : ∀ x ∈ a, pyDigit x = true)
    (hhd : ∀ x xs, r = x :: xs → pyDigit x = false) :
    List.span pyDigit (a ++ r) = (a, r) := by
  rw [List.span_eq_take_drop, List.takeWhile_append_of_pos ha,
    List.dropWhile_append_of_pos ha]
  cases r with
  | nil => simp
  | cons x xs =>
    have hx := hhd x xs rfl
    simp [List.takeWhile_cons, List.dropWhile_cons, hx]

/-- A nonempty all-digit character group: one backslash-d-plus group of the
regex, stated the way the claim states it. -/
def digitGroup (l : List Char) : Prop := l ≠ [] ∧ l.all pyDigit = true

/-- The shape the claim says parse accepts: exactly three dot-separated
digit groups with nothing else before, between, or after them.  This is a
spec-side definition, written from the claim text for comparison with the
code. -/
def strictSemverShape (s : String) : Prop :=
  ∃ a b c : List Char, digitGroup a ∧ digitGroup b ∧ digitGroup c ∧
    s.data = a ++ '.' :: (b ++ '.' :: c)

/-- The shape the code actually accepts: three dot-separated digit groups,
optionally followed by one trailing newline (the dollar anchor of re.match
matches before a single final newline). -/
def pyAcceptedShape (s : String) : Prop :=
  ∃ a b c : List Char, digitGroup a ∧ digitGroup b ∧ digitGroup c ∧
    (s.data = a ++ '.' :: (b ++ '.' :: c) ∨
     s.data = a ++ '.' :: (b ++ '.' :: (c ++ ['\n'])))

lemma semverGroups_some_iff (cs : List Char) :
    (∃ g, semverGroups cs = some g) ↔
      ∃ a b c : List Char, digitGroup a ∧ digitGroup b ∧ digitGroup c ∧
        (cs = a ++ '.' :: (b ++ '.' :: c) ∨
         cs = a ++ '.' :: (b ++ '.' :: (c ++ ['\n']))) := by
  constructor
  · rintro ⟨g, h⟩
    rw [semverGroups, List.span_eq_take_drop] at h
    simp only [] at h
    split at h
    · cases h
    · rename_i hne1
      split at h
      · rename_i r2 heq1
        rw [List.span_eq_take_drop] at h
        simp only [] at h
        split at h
        · cases h
        · rename_i hne2
          split at h
          · rename_i r4 heq2
            rw [List.span_eq_take_drop] at h
            simp only [] at h
            split at h
            · cases h
            · rename_i hne3
              split at h
              · rename_i hfin
                set A := List.takeWhile pyDigit cs with hA
                set B := List.takeWhile pyDigit r2 with hB
                set C := List.takeWhile pyDigit r4 with hC
                refine ⟨A, B, C, ?_, ?_, ?_, ?_⟩
                · exact ⟨fun hc => by rw [hc] at hne1; exact hne1 rfl, by
                    rw [hA]; exact List.all_takeWhile⟩
                · exact ⟨fun hc => by rw [hc] at hne2; exact hne2 rfl, by
                    rw [hB]; exact List.all_takeWhile⟩
                · exact ⟨fun hc => by rw [hc] at hne3; exact hne3 rfl, by
                    rw [hC]; exact List.all_takeWhile⟩
                · have hcs : cs = A ++ ('.' :: r2) := by
                    rw [← heq1, hA, List.takeWhile_append_dropWhile]
                  have hr2 : r2 = B ++ ('.' :: r4) := by
                    rw [← heq2, hB, List.takeWhile_append_dropWhile]
                  have hr4 : r4 = C ++ List.dropWhile pyDigit r4 := by
                    rw [hC, List.takeWhile_append_dropWhile]
                  rcases Bool.or_eq_true_iff.mp hfin with he | he
                  · left
                    have hdw0 : List.dropWhile pyDigit r4 = [] := by
                      cases hdw : List.dropWhile pyDigit r4 with
                      | nil => rfl
                      | cons z zs => rw [hdw] at he; cases he
                    rw [hdw0, List.append_nil] at hr4
                    rw [hcs, hr2, hr4]
                  · right
                    have hdw0 : List.dropWhile pyDigit r4 = ['\n'] := eq_of_beq he
                    rw [hdw0] at hr4
                    rw [hcs, hr2, hr4]
              · cases h
          · cases h
      · cases h
  · rintro ⟨a, b, c, ⟨ha0, ha⟩, ⟨hb0, hb⟩, ⟨hc0, hc⟩, hcs | hcs⟩
    · have h1 : List.span pyDigit cs = (a, '.' :: (b ++ '.' :: c)) := by
        rw [hcs]
        exact span_exact a _ (List.all_eq_true.mp ha) (by intro x xs hx; cases hx; rfl)
      have h2 : List.span pyDigit (b ++ '.' :: c) = (b, '.' :: c) :=
        span_exact b _ (List.all_eq_true.mp hb) (by intro x xs hx; cases hx; rfl)
      have h3 : List.span pyDigit c = (c, []) := by
        have := span_exact c [] (List.all_eq_true.mp hc) (by intro x xs hx; cases hx)
        rwa [List.append_nil] at this
      refine ⟨(a, b, c), ?_⟩
      rw [semverGroups, h1]
      simp only [isEmpty_false_of_ne_nil ha0, Bool.false_eq_true, if_false, h2,
        isEmpty_false_of_ne_nil hb0, h3, isEmpty_false_of_ne_nil hc0]
      rfl
    · have h1 : List.span pyDigit cs = (a, '.' :: (b ++ '.' :: (c ++ ['\n']))) := by
        rw [hcs]
        exact span_exact a _ (List.all_eq_true.mp ha) (by intro x xs hx; cases hx; rfl)
      have h2 : List.span pyDigit (b ++ '.' :: (c ++ ['\n'])) = (b, '.' :: (c ++ ['\n'])) :=
        span_exact b _ (List.all_eq_true.mp hb) (by intro x xs hx; cases hx; rfl)
      have h3 : List.span pyDigit (c ++ ['\n']) = (c, ['\n']) :=
        span_exact c _ (List.all_eq_true.mp hc) (by intro x xs hx; cases hx; rfl)
      refine ⟨(a, b, c), ?_⟩
      rw [semverGroups, h1]
      simp only [isEmpty_false_of_ne_nil ha0, Bool.false_eq_true, if_false, h2,
        isEmpty_false_of_ne_nil hb0, h3, isEmpty_false_of_ne_nil hc0]
      rfl

/-- C3 counterexample: the string 1.2.3 followed by a newline is not three
dot-separated digit groups and nothing else (it carries a trailing
newline), yet parse_version accepts it, because the dollar anchor of
re.match also matches just before a single trailing newline.  The claim
says every such string fails with MalformedVersion. -/
theorem parse_version_trailing_newline_accepted :
    parse_version "1.2.3\n" = .ok (1, 2, 3) ∧ ¬ strictSemverShape "1.2.3\n" := by
  refine ⟨rfl, ?_⟩
  rintro ⟨a, b, c, ⟨_, ha⟩, ⟨_, hb⟩, ⟨_, hc⟩, hcs⟩
  have hm : '\n' ∈ "1.2.3\n".data := by decide
  rw [hcs] at hm
  simp only [List.mem_append, List.mem_cons] at hm
  rcases hm with h | h | h | h | h
  · exact absurd (List.all_eq_true.mp ha _ h) (by decide)
  · exact absurd h (by decide)
  · exact absurd (List.all_eq_true.mp hb _ h) (by decide)
  · exact absurd h (by decide)
  · exact absurd (List.all_eq_true.mp hc _ h) (by decide)

/-- C3 amended: parse_version succeeds exactly on strings made of three
dot-separated groups of one or more decimal digits (any Unicode decimal
digit, as backslash-d matches and int() converts), optionally followed
by one trailing newline (which re.match's dollar anchor tolerates); on
every other string it fails with a MalformedVersion error carrying the
offending string. -/
theorem parse_version_accepts_iff (s : String) :
    ((∃ t, parse_version s = .ok t) ↔ pyAcceptedShape s) ∧
    (¬ pyAcceptedShape s →
      parse_version s = .error (.valueError ("Invalid semver format: " ++ s))) := by
  constructor
  · constructor
    · rintro ⟨t, ht⟩
      rw [parse_version] at ht
      rcases hg : semverGroups s.data with _ | g
      · rw [hg] at ht; cases ht
      · exact (semverGroups_some_iff s.data).mp ⟨g, hg⟩
    · intro hs
      obtain ⟨g, hg⟩ := (semverGroups_some_iff s.data).mpr hs
      obtain ⟨a, b, c⟩ := g
      exact ⟨_, by rw [parse_version, hg]⟩
  · intro hn
    rw [parse_version]
    rcases hg : semverGroups s.data with _ | g
    · rfl
    · exact absurd ((semverGroups_some_iff s.data).mp ⟨g, hg⟩) hn

theorem parse_version_accepts_iff_witness :
    (∃ t, parse_version "1.2.3" = .ok t) ∧
    (∃ t, parse_version "١.٢.٣" = .ok t) ∧
    parse_version "١.٢.٣" = .ok (1, 2, 3) ∧
    parse_version "12" = .error (.valueError "Invalid semver format: 12") := by
  refine ⟨?_, ?_, rfl, ?_⟩
  · exact (parse_version_accepts_iff "1.2.3").1.mpr
      ⟨['1'], ['2'], ['3'], ⟨by decide, by decide⟩, ⟨by decide, by decide⟩,
        ⟨by decide, by decide⟩, Or.inl (by decide)⟩
  · exact (parse_version_accepts_iff "١.٢.٣").1.mpr
      ⟨['١'], ['٢'], ['٣'], ⟨by decide, by decide⟩, ⟨by decide, by decide⟩,
        ⟨by decide, by decide⟩, Or.inl (by decide)⟩
  · apply (parse_version_accepts_iff "12").2
    intro hs
    obtain ⟨t, ht⟩ := (parse_version_accepts_iff "12").1.mpr hs
    rw [show parse_version "12" = .error (.valueError "Invalid semver format: 12") from rfl] at ht
    cases ht

/-- Well-formed file-system trees: the children of every directory have
pairwise distinct names, as real directories do. -/
inductive Entry.wf : Entry → Prop where
  | file (c : Content) : Entry.wf (.file c)
  | other : Entry.wf .other
  | dir (cs : List (String × Entry)) (hnd : (cs.map Prod.fst).Nodup)
      (hch : ∀ p ∈ cs, Entry.wf p.2) : Entry.wf (.dir cs)

lemma char_toNat_inj {c d : Char} (h : c.toNat = d.toNat) : c = d :=
  Char.ext (UInt32.toNat.inj h)

lemma charLtb_cases (x y : Char) :
    charLtb x y = true ∨ charLtb y x = true ∨ x = y := by
  by_cases h1 : x.toNat < y.toNat
  · exact Or.inl (by simp [charLtb, h1])
  · by_cases h2 : y.toNat < x.toNat
    · exact Or.inr (Or.inl (by simp [charLtb, h2]))
    · exact Or.inr (Or.inr (char_toNat_inj (by omega)))

lemma charLtb_asymm {x y : Char} (h : charLtb x y = true) : charLtb y x = false := by
  simp only [charLtb, decide_eq_true_eq] at h
  simp [charLtb]
  omega

lemma charLtb_irrefl (x : Char) : charLtb x x = false := by
  simp [charLtb]

lemma charLtb_trans {x y z : Char} (h1 : charLtb x y = true)
    (h2 : charLtb y z = true) : charLtb x z = true := by
  simp only [charLtb, decide_eq_true_eq] at h1 h2 ⊢
  omega

lemma strLtChars_eq_of_not : ∀ a b : List Char,
    strLtChars a b = false → strLtChars b a = false → a = b := by
  intro a
  induction a with
  | nil =>
    intro b h1 h2
    cases b with
    | nil => rfl
    | cons y ys => cases h1
  | cons x xs ih =>
    intro b h1 h2
    cases b with
    | nil => cases h2
    | cons y ys =>
      rcases charLtb_cases x y with hc | hc | hc
      · rw [strLtChars, if_pos hc] at h1
        cases h1
      · rw [strLtChars, if_pos hc] at h2
        cases h2
      · subst hc
        rw [strLtChars, if_neg (by rw [charLtb_irrefl]; exact Bool.false_ne_true),
          if_neg (by rw [charLtb_irrefl]; exact Bool.false_ne_true)] at h1 h2
        rw [ih ys h1 h2]

lemma strLtChars_trans : ∀ a b c : List Char,
    strLtChars a b = true → strLtChars b c = true → strLtChars a c = true := by
  intro a
  induction a with
  | nil =>
    intro b c h1 h2
    cases b with
    | nil => cases h1
    | cons y ys =>
      cases c with
      | nil => cases h2
      | cons z zs => rfl
  | cons x xs ih =>
    intro b c h1 h2
    cases b with
    | nil => cases h1
    | cons y ys =>
      cases c with
      | nil => cases h2
      | cons z zs =>
        rcases hxy : charLtb x y with _ | _
        · rcases hyx : charLtb y x with _ | _
          · have hx : x = y := by
              rcases charLtb_cases x y with hc | hc | hc
              · rw [hc] at hxy; cases hxy
              · rw [hc] at hyx; cases hyx
              · exact hc
            subst hx
            rw [strLtChars, if_neg (by rw [hxy]; exact Bool.false_ne_true),
              if_neg (by rw [hxy]; exact Bool.false_ne_true)] at h1
            rcases hxz : charLtb x z with _ | _
            · rcases hzx : charLtb z x with _ | _
              · have hx2 : x = z := by
                  rcases charLtb_cases x z with hc | hc | hc
                  · rw [hc] at hxz; cases hxz
                  · rw [hc] at hzx; cases hzx
                  · exact hc
                subst hx2
                rw [strLtChars, if_neg (by rw [hxz]; exact Bool.false_ne_true),
                  if_neg (by rw [hxz]; exact Bool.false_ne_true)] at h2 ⊢
                exact ih ys zs h1 h2
              · rw [strLtChars, if_neg (by rw [hxz]; exact Bool.false_ne_true),
                  if_pos hzx] at h2
                cases h2
            · rw [strLtChars, if_pos hxz]
          · rw [strLtChars, if_neg (by rw [hxy]; exact Bool.false_ne_true),
              if_pos hyx] at h1
            cases h1
        · rcases hyz : charLtb y z with _ | _
          · rcases hzy : charLtb z y with _ | _
            · have hy : y = z := by
                rcases charLtb_cases y z with hc | hc | hc
                · rw [hc] at hyz; cases hyz
                · rw [hc] at hzy; cases hzy
                · exact hc
              subst hy
              rw [strLtChars, if_pos hxy]
            · rw [strLtChars, if_neg (by rw [hyz]; exact Bool.false_ne_true),
                if_pos hzy] at h2
              cases h2
          · rw [strLtChars, if_pos (charLtb_trans hxy hyz)]

lemma strLtb_eq_of_not {a b : String} (h1 : strLtb a b = false)
    (h2 : strLtb b a = false) : a = b := by
  have hd := strLtChars_eq_of_not a.data b.data h1 h2
  cases a
  cases b
  exact congrArg String.mk hd

lemma pathLeb_total : ∀ p q : FsPath, pathLeb p q = true ∨ pathLeb q p = true := by
  intro p
  induction p with
  | nil => intro q; exact Or.inl rfl
  | cons a as ih =>
    intro q
    cases q with
    | nil => exact Or.inr rfl
    | cons b bs =>
      rcases hab : strLtb a b with _ | _
      · rcases hba : strLtb b a with _ | _
        · rcases ih bs with h | h
          · exact Or.inl (by rw [pathLeb, if_neg (by rw [hab]; exact Bool.false_ne_true),
              if_neg (by rw [hba]; exact Bool.false_ne_true)]; exact h)
          · exact Or.inr (by rw [pathLeb, if_neg (by rw [hba]; exact Bool.false_ne_true),
              if_neg (by rw [hab]; exact Bool.false_ne_true)]; exact h)
        · exact Or.inr (by rw [pathLeb, if_pos hba])
      · exact Or.inl (by rw [pathLeb, if_pos hab])

lemma strLtChars_asymm : ∀ a b : List Char,
    strLtChars a b = true → strLtChars b a = false := by
  intro a
  induction a with
  | nil =>
    intro b h
    cases b with
    | nil => cases h
    | cons y ys => rfl
  | cons x xs ih =>
    intro b h
    cases b with
    | nil => cases h
    | cons y ys =>
      rcases hxy : charLtb x y with _ | _
      · rcases hyx : charLtb y x with _ | _
        · rw [strLtChars, if_neg (by rw [hxy]; exact Bool.false_ne_true),
            if_neg (by rw [hyx]; exact Bool.false_ne_true)] at h
          rw [strLtChars, if_neg (by rw [hyx]; exact Bool.false_ne_true),
            if_neg (by rw [hxy]; exact Bool.false_ne_true)]
          exact ih ys h
        · rw [strLtChars, if_neg (by rw [hxy]; exact Bool.false_ne_true),
            if_pos hyx] at h
          cases h
      · rw [strLtChars, if_neg (by rw [charLtb_asymm hxy]; exact Bool.false_ne_true),
          if_pos hxy]

lemma strLtb_asymm {a b : String} (h : strLtb a b = true) : strLtb b a = false :=
  strLtChars_asymm a.data b.data h

lemma pathLeb_trans : ∀ p q r : FsPath, pathLeb p q = true → pathLeb q r = true →
    pathLeb p r = true := by
  intro p
  induction p with
  | nil => intro q r _ _; rfl
  | cons a as ih =>
    intro q r h1 h2
    cases q with
    | nil => cases h1
    | cons b bs =>
      cases r with
      | nil =>
        rw [pathLeb] at h2
        cases h2
      | cons c cs =>
        rcases hab : strLtb a b with _ | _
        · rcases hba : strLtb b a with _ | _
          · have hx : a = b := strLtb_eq_of_not hab hba
            subst hx
            rw [pathLeb, if_neg (by rw [hab]; exact Bool.false_ne_true),
              if_neg (by rw [hab]; exact Bool.false_ne_true)] at h1
            rcases hac : strLtb a c with _ | _
            · rcases hca : strLtb c a with _ | _
              · have hx2 : a = c := strLtb_eq_of_not hac hca
                subst hx2
                rw [pathLeb, if_neg (by rw [hac]; exact Bool.false_ne_true),
                  if_neg (by rw [hac]; exact Bool.false_ne_true)] at h2 ⊢
                exact ih bs cs h1 h2
              · rw [pathLeb, if_neg (by rw [hac]; exact Bool.false_ne_true),
                  if_pos hca] at h2
                cases h2
            · rw [pathLeb, if_pos hac]
          · rw [pathLeb, if_neg (by rw [hab]; exact Bool.false_ne_true),
              if_pos hba] at h1
            cases h1
        · rcases hbc : strLtb b c with _ | _
          · rcases hcb : strLtb c b with _ | _
            · have hy : b = c := strLtb_eq_of_not hbc hcb
              subst hy
              rw [pathLeb, if_pos hab]
            · rw [pathLeb, if_neg (by rw [hbc]; exact Bool.false_ne_true),
                if_pos hcb] at h2
              cases h2
          · have h3 : strLtb a c = true :=
              strLtChars_trans a.data b.data c.data hab hbc
            rw [pathLeb, if_pos h3]

instance : IsTotal FsPath pathLe := ⟨pathLeb_total⟩

instance : IsTrans FsPath pathLe := ⟨pathLeb_trans⟩

lemma childrenMatches_ne_nil (name : String) :
    ∀ (cs : List (String × Entry)) (x : FsPath), x ∈ childrenMatches name cs → x ≠ [] := by
  intro cs
  induction cs with
  | nil => intro x hx; simp [childrenMatches] at hx
  | cons hd rest ih =>
    obtain ⟨n, e⟩ := hd
    intro x hx
    simp only [childrenMatches, List.mem_append, List.mem_map] at hx
    rcases hx with (hx | hx) | hx
    · by_cases hn : n = name
      · simp only [if_pos hn, List.mem_singleton] at hx
        subst hx
        exact List.cons_ne_nil n []
      · simp [if_neg hn] at hx
    · obtain ⟨q, _, hq⟩ := hx
      rw [← hq]
      exact List.cons_ne_nil n q
    · exact ih x hx

lemma entryMatches_ne_nil (name : String) (e : Entry) (x : FsPath)
    (hx : x ∈ entryMatches name e) : x ≠ [] := by
  cases e with
  | dir cs => exact childrenMatches_ne_nil name cs x hx
  | file c => simp [entryMatches] at hx
  | other => simp [entryMatches] at hx

lemma childrenMatches_head (name : String) :
    ∀ (cs : List (String × Entry)) (n : String) (q : FsPath),
      (n :: q) ∈ childrenMatches name cs → n ∈ cs.map Prod.fst := by
  intro cs
  induction cs with
  | nil => intro n q hx; simp [childrenMatches] at hx
  | cons hd rest ih =>
    obtain ⟨m, e⟩ := hd
    intro n q hx
    simp only [childrenMatches, List.mem_append, List.mem_map] at hx
    rcases hx with (hx | hx) | hx
    · by_cases hm : m = name
      · simp only [if_pos hm, List.mem_singleton, List.cons.injEq] at hx
        simp [hx.1]
      · simp [if_neg hm] at hx
    · obtain ⟨q2, _, hq⟩ := hx
      simp only [List.cons.injEq] at hq
      simp [hq.1]
    · simp [ih n q hx]

lemma mem_childrenMatches_aux (name n : String) (q : FsPath)
    (IH : ∀ e2 : Entry, e2.wf →
      (q ∈ entryMatches name e2 ↔
        q ≠ [] ∧ q.getLast? = some name ∧ (e2.lookup q).isSome = true)) :
    ∀ cs : List (String × Entry), (cs.map Prod.fst).Nodup → (∀ p ∈ cs, Entry.wf p.2) →
      ((n :: q) ∈ childrenMatches name cs ↔
        (n :: q).getLast? = some name ∧
          ((Entry.dir cs).lookup (n :: q)).isSome = true) := by
  intro cs
  induction cs with
  | nil =>
    intro _ _
    simp [childrenMatches, Entry.lookup]
  | cons hd rest ih =>
    obtain ⟨m, e2⟩ := hd
    intro hnd hwfc
    have hndm : (m :: rest.map Prod.fst).Nodup := by rw [List.map_cons] at hnd; exact hnd
    have hnd2 := List.nodup_cons.mp hndm
    have hwf2 : Entry.wf e2 := hwfc (m, e2) (List.mem_cons_self _ _)
    have hwfr : ∀ p ∈ rest, Entry.wf p.2 := fun p hp => hwfc p (List.mem_cons_of_mem _ hp)
    by_cases hm : n = m
    · subst hm
      have hlkc : List.lookup n ((n, e2) :: rest) = some e2 := by simp
      constructor
      · intro hx
        simp only [childrenMatches, List.mem_append, List.mem_map] at hx
        rcases hx with (hx | hx) | hx
        · by_cases hname : n = name
          · simp only [if_pos hname, List.mem_singleton, List.cons.injEq] at hx
            rw [hx.2]
            refine ⟨by simp [hname], ?_⟩
            rw [Entry.lookup, hlkc]
            simp [Entry.lookup]
          · simp [if_neg hname] at hx
        · obtain ⟨q2, hq2, hq⟩ := hx
          simp only [List.cons.injEq] at hq
          rw [hq.2] at hq2
          obtain ⟨hq0, hqlast, hqlk⟩ := (IH e2 hwf2).mp hq2
          refine ⟨?_, ?_⟩
          · cases q with
            | nil => exact absurd rfl hq0
            | cons y ys => rw [List.getLast?_cons_cons]; exact hqlast
          · rw [Entry.lookup, hlkc]
            exact hqlk
        · exact absurd (childrenMatches_head name rest n q hx) hnd2.1
      · rintro ⟨hlast, hlk⟩
        rw [Entry.lookup, hlkc] at hlk
        simp only [childrenMatches, List.mem_append, List.mem_map]
        cases q with
        | nil =>
          simp only [List.getLast?_singleton, Option.some.injEq] at hlast
          left
          left
          simp [hlast]
        | cons y ys =>
          rw [List.getLast?_cons_cons] at hlast
          left
          right
          exact ⟨y :: ys, (IH e2 hwf2).mpr ⟨List.cons_ne_nil y ys, hlast, hlk⟩, rfl⟩
    · have hlkc : List.lookup n ((m, e2) :: rest) = List.lookup n rest := by
        simp [List.lookup_cons, beq_false_of_ne hm]
      have hrest := ih hnd2.2 hwfr
      constructor
      · intro hx
        simp only [childrenMatches, List.mem_append, List.mem_map] at hx
        rcases hx with (hx | hx) | hx
        · by_cases hname : m = name
          · simp only [if_pos hname, List.mem_singleton, List.cons.injEq] at hx
            exact absurd hx.1 hm
          · simp [if_neg hname] at hx
        · obtain ⟨q2, _, hq⟩ := hx
          simp only [List.cons.injEq] at hq
          exact absurd hq.1 (fun hh => hm hh.symm)
        · obtain ⟨hlast, hlk⟩ := hrest.mp hx
          refine ⟨hlast, ?_⟩
          rw [Entry.lookup, hlkc]
          rw [Entry.lookup] at hlk
          exact hlk
      · rintro ⟨hlast, hlk⟩
        rw [Entry.lookup, hlkc] at hlk
        simp only [childrenMatches, List.mem_append, List.mem_map]
        right
        exact hrest.mpr ⟨hlast, by rw [Entry.lookup]; exact hlk⟩

lemma mem_entryMatches (name : String) :
    ∀ (r : FsPath) (e : Entry), e.wf →
      (r ∈ entryMatches name e ↔
        r ≠ [] ∧ r.getLast? = some name ∧ (e.lookup r).isSome = true) := by
  intro r
  induction r with
  | nil =>
    intro e _
    constructor
    · intro hx
      exact absurd rfl (entryMatches_ne_nil name e [] hx)
    · rintro ⟨h1, _, _⟩
      exact absurd rfl h1
  | cons n q ih =>
    intro e hwf
    cases e with
    | file c => simp [entryMatches, Entry.lookup]
    | other => simp [entryMatches, Entry.lookup]
    | dir cs =>
      cases hwf with
      | dir _ hnd hch =>
        rw [entryMatches]
        rw [mem_childrenMatches_aux name n q ih cs hnd hch]
        simp [List.cons_ne_nil]

mutual
theorem entryMatches_nodup (name : String) : ∀ (e : Entry), e.wf → (entryMatches name e).Nodup
  | .file _, _ => by simp [entryMatches]
  | .other, _ => by simp [entryMatches]
  | .dir cs, h => by
    cases h with
    | dir _ hnd hch => exact childrenMatches_nodup name cs hnd hch

theorem childrenMatches_nodup (name : String) : ∀ (cs : List (String × Entry)),
    (cs.map Prod.fst).Nodup → (∀ p ∈ cs, Entry.wf p.2) → (childrenMatches name cs).Nodup
  | [], _, _ => by simp [childrenMatches]
  | (m, e) :: rest, hnd, hwfc => by
    have hndm : (m :: rest.map Prod.fst).Nodup := by rw [List.map_cons] at hnd; exact hnd
    have h2 := List.nodup_cons.mp hndm
    have hwfe : Entry.wf e := hwfc (m, e) (List.mem_cons_self _ _)
    have hrec1 : (entryMatches name e).Nodup := entryMatches_nodup name e hwfe
    have hrec2 : (childrenMatches name rest).Nodup :=
      childrenMatches_nodup name rest h2.2 (fun p hp => hwfc p (List.mem_cons_of_mem _ hp))
    rw [childrenMatches]
    apply List.Nodup.append
    · apply List.Nodup.append
      · by_cases hm : m = name
        · simp [if_pos hm]
        · simp [if_neg hm]
      · exact hrec1.map List.cons_injective
      · intro x hx1 hx2
        by_cases hm : m = name
        · simp only [if_pos hm, List.mem_singleton] at hx1
          subst hx1
          simp only [List.mem_map] at hx2
          obtain ⟨q2, hq2, hq⟩ := hx2
          simp only [List.cons.injEq] at hq
          exact entryMatches_ne_nil name e q2 hq2 hq.2
        · simp [if_neg hm] at hx1
    · exact hrec2
    · intro x hx1 hx2
      simp only [List.mem_append, List.mem_map] at hx1
      have hx : ∃ q2, x = m :: q2 := by
        rcases hx1 with hx1 | hx1
        · by_cases hm : m = name
          · simp only [if_pos hm, List.mem_singleton] at hx1
            exact ⟨[], hx1⟩
          · simp [if_neg hm] at hx1
        · obtain ⟨q2, _, hq⟩ := hx1
          exact ⟨q2, hq.symm⟩
      obtain ⟨q2, rfl⟩ := hx
      exact h2.1 (childrenMatches_head name rest m q2 hx2)
end

lemma lookup_mem : ∀ (l : List (String × Entry)) (k : String) (v : Entry),
    List.lookup k l = some v → ∃ k2, (k2, v) ∈ l := by
  intro l
  induction l with
  | nil => intro k v h; cases h
  | cons hd rest ih =>
    obtain ⟨m, x⟩ := hd
    intro k v h
    rcases hb : k == m with _ | _
    · simp only [List.lookup_cons, hb] at h
      obtain ⟨k2, hk2⟩ := ih k v h
      exact ⟨k2, List.mem_cons_of_mem _ hk2⟩
    · simp only [List.lookup_cons, hb, Option.some.injEq] at h
      subst h
      exact ⟨m, List.mem_cons_self _ _⟩

lemma wf_lookup : ∀ (p : FsPath) (fs e : Entry), fs.wf → fs.lookup p = some e → e.wf := by
  intro p
  induction p with
  | nil =>
    intro fs e hwf h
    rw [Entry.lookup] at h
    injection h with h1
    rwa [← h1]
  | cons n q ih =>
    intro fs e hwf h
    cases fs with
    | file c => cases h
    | other => cases h
    | dir cs =>
      rw [Entry.lookup] at h
      rcases hl : List.lookup n cs with _ | e0
      · rw [hl] at h; cases h
      · rw [hl] at h
        obtain ⟨k2, hk2⟩ := lookup_mem cs n e0 hl
        cases hwf with
        | dir _ hnd hch => exact ih e0 e (hch (k2, e0) hk2) h

/-- Boolean test for a regular file, for the spec-side collector. -/
def Entry.isFileB : Entry → Bool
  | .file _ => true
  | _ => false

mutual
/-- Modelled from the claim wording, for comparison with the code: the
relative paths of every regular file (and only files) with the given name
strictly below this entry. -/
def fileMatchesSpec (name : String) : Entry → List FsPath
  | .dir cs => childrenFileMatchesSpec name cs
  | _ => []

/-- The file-only matches contributed by a list of directory children. -/
def childrenFileMatchesSpec (name : String) : List (String × Entry) → List FsPath
  | [] => []
  | (n, e) :: rest =>
    ((if n = name ∧ e.isFileB = true then [[n]] else []) ++
      (fileMatchesSpec name e).map (n :: ·)) ++ childrenFileMatchesSpec name rest
end

lemma insertionSort_eq_nil_iff {r : FsPath → FsPath → Prop} [DecidableRel r]
    {l : List FsPath} : List.insertionSort r l = [] ↔ l = [] := by
  constructor
  · intro h
    have hp := List.perm_insertionSort r l
    rw [h] at hp
    exact hp.symm.eq_nil
  · intro h
    rw [h]
    rfl

/-- C4 counterexample, two parts at concrete trees.  First: on a directory
holding manifests under a.b and under a/x, the locator returns the a/x
manifest first, although the full path string of the a.b manifest is
lexicographically smaller — sorted() orders pathlib Paths by their
component tuples, not by the joined strings.  Second: on a directory
whose only match is itself a directory named like the manifest, the
locator returns that directory even though the set of manifest files is
empty, because rglob matches directory entries of any kind. -/
theorem find_templates_counterexample :
    (find_templates orderDemoTree [] =
        .ok [["a", "x", manifestName], ["a.b", manifestName]] ∧
      strLtb (pathJoin ["a.b", manifestName]) (pathJoin ["a", "x", manifestName]) = true) ∧
    (find_templates dirMatchTree [] = .ok [["sub", manifestName]] ∧
      Entry.lookup dirMatchTree ["sub", manifestName] = some (.dir []) ∧
      fileMatchesSpec manifestName dirMatchTree = []) :=
  ⟨⟨rfl, rfl⟩, ⟨rfl, rfl, rfl⟩⟩

/-- C4 amended: on a well-formed file-system tree, for every directory
target containing at least one entry (of any kind: regular file,
directory, or special file) named like the manifest at any depth, the
locator succeeds and returns exactly the set of all such entries, with no
duplicates, sorted in the stable deterministic order that compares paths
component by component (the pathlib Path order), which can differ from
lexicographic comparison of the joined path strings. -/
theorem find_templates_dir_characterization (fs : Entry) (target : FsPath)
    (cs : List (String × Entry)) (hwf : fs.wf)
    (hdir : fs.lookup target = some (.dir cs))
    (hex : ∃ r, r ≠ [] ∧ r.getLast? = some manifestName ∧
      ((Entry.dir cs).lookup r).isSome = true) :
    ∃ l, find_templates fs target = .ok l ∧
      (∀ q, q ∈ l ↔ ∃ r, q = target ++ r ∧ r ≠ [] ∧ r.getLast? = some manifestName ∧
        ((Entry.dir cs).lookup r).isSome = true) ∧
      l.Nodup ∧ l.Sorted pathLe := by
  have hwfd : Entry.wf (.dir cs) := wf_lookup target fs _ hwf hdir
  have hmm : ∀ r, r ∈ childrenMatches manifestName cs ↔
      (r ≠ [] ∧ r.getLast? = some manifestName ∧
        ((Entry.dir cs).lookup r).isSome = true) := by
    intro r
    rw [← mem_entryMatches manifestName r (.dir cs) hwfd, entryMatches]
  obtain ⟨r0, hr0⟩ := hex
  have hr0m : r0 ∈ childrenMatches manifestName cs := (hmm r0).mpr hr0
  have hne : (List.insertionSort pathLe
      ((childrenMatches manifestName cs).map (target ++ ·))).isEmpty = false := by
    rcases hy : List.insertionSort pathLe
        ((childrenMatches manifestName cs).map (target ++ ·)) with _ | ⟨z, zs⟩
    · rw [insertionSort_eq_nil_iff] at hy
      rw [List.map_eq_nil_iff] at hy
      rw [hy] at hr0m
      cases hr0m
    · rfl
  refine ⟨List.insertionSort pathLe
    ((childrenMatches manifestName cs).map (target ++ ·)), ?_, ?_, ?_, ?_⟩
  · rw [find_templates, hdir]
    simp only [hne, Bool.false_eq_true, if_false]
  · intro q
    rw [List.mem_insertionSort, List.mem_map]
    constructor
    · rintro ⟨r, hr, rfl⟩
      exact ⟨r, rfl, (hmm r).mp hr⟩
    · rintro ⟨r, rfl, hr⟩
      exact ⟨r, (hmm r).mpr hr, rfl⟩
  · refine (List.perm_insertionSort pathLe _).symm.nodup ?_
    refine List.Nodup.map ?_ ?_
    · intro x y hxy
      exact List.append_cancel_left hxy
    · cases hwfd with
      | dir _ hnd hch => exact childrenMatches_nodup manifestName cs hnd hch
  · exact List.sorted_insertionSort pathLe _

theorem find_templates_dir_characterization_witness :
    ∃ l, find_templates (Entry.dir [(manifestName, Entry.file (.valid (.jobj [])))])
        [] = .ok l ∧
      (∀ q, q ∈ l ↔ ∃ r, q = ([] : FsPath) ++ r ∧ r ≠ [] ∧
        r.getLast? = some manifestName ∧
        ((Entry.dir [(manifestName, Entry.file (.valid (.jobj [])))]).lookup r).isSome
          = true) ∧
      l.Nodup ∧ l.Sorted pathLe := by
  apply find_templates_dir_characterization
  · apply Entry.wf.dir
    · simp
    · intro p hp
      simp only [List.mem_singleton] at hp
      rw [hp]
      exact Entry.wf.file _
  · rfl
  · exact ⟨[manifestName], by simp, rfl, rfl⟩

/-- C5 counterexample at a concrete tree: a directory whose only entry is
a subdirectory named like the manifest contains zero files with the
manifest name, so the claim says the locator fails with NoTemplatesFound;
the code instead succeeds and returns that directory, because rglob
counts directory entries of any kind as matches. -/
theorem find_templates_no_file_counterexample :
    fileMatchesSpec manifestName (Entry.dir [(manifestName, Entry.dir [])]) = [] ∧
    find_templates (Entry.dir [(manifestName, Entry.dir [])]) [] =
      .ok [[manifestName]] :=
  ⟨rfl, rfl⟩

/-- C5 amended: on a well-formed tree, the locator fails with
TargetNotFound exactly when the path does not resolve; on a regular file
it succeeds exactly when the file name is exactly the manifest name and
fails with InvalidTarget otherwise; on a special file it fails with
InvalidTarget; and on a directory it fails with NoTemplatesFound exactly
when the directory contains zero entries of any kind (file, directory, or
special file) with the manifest name at any depth, succeeding otherwise. -/
theorem find_templates_error_cases (fs : Entry) (target : FsPath) (hwf : fs.wf) :
    (fs.lookup target = none →
      find_templates fs target =
        .error (.fileNotFoundError ("Target not found: " ++ pathJoin target))) ∧
    (∀ c, fs.lookup target = some (.file c) →
      ((target.getLast?).getD "" = manifestName →
        find_templates fs target = .ok [target]) ∧
      ((target.getLast?).getD "" ≠ manifestName →
        find_templates fs target =
          .error (.valueError ("Invalid target: " ++ pathJoin target)))) ∧
    (fs.lookup target = some .other →
      find_templates fs target =
        .error (.valueError ("Invalid target: " ++ pathJoin target))) ∧
    (∀ cs, fs.lookup target = some (.dir cs) →
      (find_templates fs target =
          .error (.valueError ("No templates found in " ++ pathJoin target)) ↔
        ∀ r, ¬(r ≠ [] ∧ r.getLast? = some manifestName ∧
          ((Entry.dir cs).lookup r).isSome = true))) ∧
    (∀ cs, fs.lookup target = some (.dir cs) →
      (∃ r, r ≠ [] ∧ r.getLast? = some manifestName ∧
        ((Entry.dir cs).lookup r).isSome = true) →
      ∃ l, find_templates fs target = .ok l) := by
  refine ⟨?_, ?_, ?_, ?_, ?_⟩
  · intro h
    rw [find_templates, h]
  · intro c h
    constructor
    · intro hn
      rw [find_templates, h, if_pos hn]
    · intro hn
      rw [find_templates, h, if_neg hn]
  · intro h
    rw [find_templates, h]
  · intro cs h
    have hwfd : Entry.wf (.dir cs) := wf_lookup target fs _ hwf h
    have hmm : ∀ r, r ∈ childrenMatches manifestName cs ↔
        (r ≠ [] ∧ r.getLast? = some manifestName ∧
          ((Entry.dir cs).lookup r).isSome = true) := by
      intro r
      rw [← mem_entryMatches manifestName r (.dir cs) hwfd, entryMatches]
    rw [find_templates, h]
    simp only []
    constructor
    · intro herr r hp
      split at herr
      · rename_i hemp
        rw [List.isEmpty_iff, insertionSort_eq_nil_iff, List.map_eq_nil_iff] at hemp
        have hr : r ∈ childrenMatches manifestName cs := (hmm r).mpr hp
        rw [hemp] at hr
        cases hr
      · cases herr
    · intro hall
      have hnil : childrenMatches manifestName cs = [] := by
        rcases hc : childrenMatches manifestName cs with _ | ⟨x, xs⟩
        · rfl
        · have hx : x ∈ childrenMatches manifestName cs := by
            rw [hc]
            exact List.mem_cons_self _ _
          exact absurd ((hmm x).mp hx) (hall x)
      rw [hnil]
      rfl
  · intro cs h hex
    have hwfd : Entry.wf (.dir cs) := wf_lookup target fs _ hwf h
    obtain ⟨r0, hr0⟩ := hex
    have hr0m : r0 ∈ childrenMatches manifestName cs := by
      rw [← mem_entryMatches manifestName r0 (.dir cs) hwfd, entryMatches] at hr0
      exact hr0
    have hne : (List.insertionSort pathLe
        ((childrenMatches manifestName cs).map (target ++ ·))).isEmpty = false := by
      rcases hy : List.insertionSort pathLe
          ((childrenMatches manifestName cs).map (target ++ ·)) with _ | ⟨z, zs⟩
      · rw [insertionSort_eq_nil_iff, List.map_eq_nil_iff] at hy
        rw [hy] at hr0m
        cases hr0m
      · rfl
    refine ⟨List.insertionSort pathLe
      ((childrenMatches manifestName cs).map (target ++ ·)), ?_⟩
    rw [find_templates, h]
    simp only [hne, Bool.false_eq_true, if_false]

theorem find_templates_error_cases_witness :
    find_templates (Entry.dir []) ["missing"] =
      .error (.fileNotFoundError "Target not found: missing") ∧
    find_templates (Entry.dir []) [] =
      .error (.valueError "No templates found in .") := by
  have hwf : Entry.wf (Entry.dir []) := Entry.wf.dir [] (by simp) (by intro p hp; cases hp)
  constructor
  · exact (find_templates_error_cases (Entry.dir []) ["missing"] hwf).1 rfl
  · refine ((find_templates_error_cases (Entry.dir []) [] hwf).2.2.2.1 [] rfl).mpr ?_
    intro r hp
    rcases r with _ | ⟨n, q⟩
    · exact hp.1 rfl
    · exact absurd hp.2.2 (by simp [Entry.lookup])
